import Mathlib

/-!
Verification development for the gollama adaptive rate-limited worker-pool
subsystem: the token-bucket rate limiter (`pkg/ratelimiter/ratelimiter.go`),
the job queue with per-job retry (`internal/queue/job_queue.go`), the retry
helpers (`internal/retry/retry.go`, `pkg/retry/retry.go`) and the capacity
autoscaler (`internal/scaling/autoscaler.go`).

Go `float64` values are modelled as `ℚ`, `time.Duration`/`int64` as `ℤ`,
instants (`time.Time`) as `ℚ`.  Each definition mirrors the corresponding Go
function; the doc comment names its source.
-/

namespace Gollama

/-- Error values (Go `error`); a concrete code stands in for the error. -/
abbrev Err := Nat

namespace RateLimiter

/-- State of `ratelimiter.RateLimiter` (`pkg/ratelimiter/ratelimiter.go`):
`rate`, `interval`, `capacity`, `tokens` are the `float64`/`Duration` fields,
`lastRefillTime` the `time.Time` field. -/
structure State where
  rate : ℚ
  interval : ℚ
  capacity : ℚ
  tokens : ℚ
  lastRefillTime : ℚ
deriving DecidableEq

/-- Constructor `ratelimiter.New(rate, interval, capacity)`: a non-positive
capacity defaults to `rate`; the bucket starts full (`tokens = capacity`).
`t0` is the construction instant (`time.Now()`). -/
def New (rate interval capacity t0 : ℚ) : State :=
  let cap := if capacity ≤ 0 then rate else capacity
  { rate := rate, interval := interval, capacity := cap, tokens := cap,
    lastRefillTime := t0 }

/-- Method `(*RateLimiter).refill` at instant `now`: adds
`elapsed / interval * rate` tokens when that quantity is positive, clamping
at `capacity`, and unconditionally advances `lastRefillTime` to `now`. -/
def refill (rl : State) (now : ℚ) : State :=
  let elapsed := now - rl.lastRefillTime
  let tokensToAdd := elapsed / rl.interval * rl.rate
  let rl' : State := { rl with lastRefillTime := now }
  if 0 < tokensToAdd then
    let t := rl'.tokens + tokensToAdd
    { rl' with tokens := if rl'.capacity < t then rl'.capacity else t }
  else
    rl'

/-- Method `(*RateLimiter).AllowN(n)` at instant `now`: refill, then consume
`n` tokens iff `tokens ≥ n`.  Returns the Go boolean and the new state; the
whole function body runs under the limiter's mutex. -/
def AllowN (rl : State) (now n : ℚ) : Bool × State :=
  let rl' := refill rl now
  if n ≤ rl'.tokens then (true, { rl' with tokens := rl'.tokens - n })
  else (false, rl')

/-- Method `(*RateLimiter).Allow()` = `AllowN(1)`. -/
def Allow (rl : State) (now : ℚ) : Bool × State :=
  AllowN rl now 1

/-- Method `(*RateLimiter).Available()`: refill, then report `tokens`
without consuming. -/
def Available (rl : State) (now : ℚ) : ℚ × State :=
  let rl' := refill rl now
  (rl'.tokens, rl')

/-- One observable access to the limiter, tagged with the instant at which
it happens. -/
inductive Op where
  | allow (now : ℚ)
  | allowN (now n : ℚ)
  | available (now : ℚ)

/-- State transition of one access. -/
def step (rl : State) : Op → State
  | .allow now => (Allow rl now).2
  | .allowN now n => (AllowN rl now n).2
  | .available now => (Available rl now).2

/-- A sequence of accesses, interleaved with arbitrary passage of time (each
op carries its own `now`). -/
def run (rl : State) (ops : List Op) : State :=
  ops.foldl step rl

/-- The token-bound invariant of the spec: `0 ≤ tokens ≤ capacity`. -/
def TokenInv (rl : State) : Prop :=
  0 ≤ rl.tokens ∧ rl.tokens ≤ rl.capacity

/-- An op that consumes a nonnegative token count (`Allow` consumes 1;
`Available` consumes none). -/
def OpNonneg : Op → Prop
  | .allow _ => True
  | .allowN _ n => 0 ≤ n
  | .available _ => True

end RateLimiter

namespace Queue

/-- Struct `queue.Job` (`internal/queue/job_queue.go`): `ID`, `Task`,
`Retries`.  The Go task is `func() error`; successive calls may differ, so
it is modelled as the outcome of each 1-based attempt number. -/
structure Job where
  ID : ℕ
  Task : ℕ → Option Err
  Retries : ℤ

/-- Observable actions of the worker loop (`(*JobQueue).worker`):
task executions, the fixed 500 ms inter-attempt sleep, the result-map write,
the post-job `time.Sleep(rateLimit)`, and a rate-limiter admission
(`tokenGrant`) — the last exists only to state claims about admission; the
worker code contains no rate-limiter call. -/
inductive Event where
  | exec (attempt : ℕ)
  | sleepBackoff (ms : ℕ)
  | tokenGrant
  | record (id : ℕ) (res : Option Err)
  | sleepRate (d : ℤ)
deriving DecidableEq

/-- Whether an event is a task execution. -/
def Event.isExec : Event → Bool
  | .exec _ => true
  | _ => false

/-- Whether an event is a rate-limiter admission. -/
def Event.isGrant : Event → Bool
  | .tokenGrant => true
  | _ => false

/-- Whether an event is the post-job rate-limit sleep. -/
def Event.isSleepRate : Event → Bool
  | .sleepRate _ => true
  | _ => false

/-- Number of task executions in a trace. -/
def execCount (tr : List Event) : ℕ := tr.countP Event.isExec

/-- Number of rate-limiter admissions in a trace. -/
def grantCount (tr : List Event) : ℕ := tr.countP Event.isGrant

/-- Number of post-job rate-limit sleeps in a trace. -/
def sleepRateCount (tr : List Event) : ℕ := tr.countP Event.isSleepRate

/-- Attempt loop of `(*JobQueue).worker`:
`for attempt := 1; attempt <= retryCount; attempt++ { err = job.Task(); if
err == nil { break }; time.Sleep(500ms) }`.  Arguments: current attempt
number, remaining iterations, current value of `err` (`nil` initially).
Returns the final `err` and the trace of executions and sleeps. -/
def runJob (task : ℕ → Option Err) : ℕ → ℕ → Option Err → Option Err × List Event
  | _, 0, err => (err, [])
  | attempt, r + 1, _ =>
    match task attempt with
    | none => (none, [.exec attempt])
    | some e =>
      let rest := runJob task (attempt + 1) r (some e)
      (rest.1, .exec attempt :: .sleepBackoff 500 :: rest.2)

/-- The worker's attempt loop for a job with the given `Retries` field
(`retryCount := job.Retries`); a non-positive retry count runs zero
iterations and leaves `err = nil`. -/
def processJob (task : ℕ → Option Err) (retries : ℤ) : Option Err × List Event :=
  runJob task 1 retries.toNat none

/-- Terminal outcome the worker records for a job:
`jq.results[job.ID] = err`. -/
def terminalResult (job : Job) : Option Err :=
  (processJob job.Task job.Retries).1

/-- Full per-job body of `(*JobQueue).worker`: the attempt loop, then the
result-map write, then `time.Sleep(jq.rateLimit)`. -/
def workerJobTrace (rateLimit : ℤ) (job : Job) : List Event :=
  let r := processJob job.Task job.Retries
  r.2 ++ [.record job.ID r.1, .sleepRate rateLimit]

/-- State of `queue.JobQueue`: the `jobs` channel is modelled as the list of
pending jobs plus a closed flag (Go's `close(jq.jobs)`); `results` is the
result map as an association list (latest write first). -/
structure JobQueue where
  workerCount : ℕ
  rateLimit : ℤ
  pending : List Job
  results : List (ℕ × Option Err)
  closed : Bool

/-- Constructor `queue.NewJobQueue(workerCount, rateLimit)`. -/
def NewJobQueue (workerCount : ℕ) (rateLimit : ℤ) : JobQueue :=
  { workerCount := workerCount, rateLimit := rateLimit, pending := [],
    results := [], closed := false }

/-- Outcome of `(*JobQueue).AddJob`: in Go the method returns nothing; a
send on the closed `jobs` channel panics. -/
inductive AddJobOutcome where
  | ok (jq : JobQueue)
  | panicSendOnClosedChannel

/-- Method `(*JobQueue).AddJob(id, task, retries)`: `wg.Add(1)` then
`jq.jobs <- Job{...}`.  Sending on the channel after `Wait` has closed it
panics (Go semantics of send on closed channel). -/
def AddJob (jq : JobQueue) (job : Job) : AddJobOutcome :=
  if jq.closed then .panicSendOnClosedChannel
  else .ok { jq with pending := jq.pending ++ [job] }

/-- A sequence of `AddJob` calls; stops at the first panic. -/
def submitAll : JobQueue → List Job → AddJobOutcome
  | jq, [] => .ok jq
  | jq, job :: rest =>
    match AddJob jq job with
    | .ok jq' => submitAll jq' rest
    | .panicSendOnClosedChannel => .panicSendOnClosedChannel

/-- Write to the Go results map `jq.results[k] = v` (last write wins). -/
def mapInsert (m : List (ℕ × Option Err)) (k : ℕ) (v : Option Err) :
    List (ℕ × Option Err) :=
  (k, v) :: m.filter (fun p => p.1 != k)

/-- Workers drain the pending jobs, each recording its terminal result. -/
def runJobsList (jobs : List Job) (m : List (ℕ × Option Err)) :
    List (ℕ × Option Err) :=
  jobs.foldl (fun acc job => mapInsert acc job.ID (terminalResult job)) m

/-- Method `(*JobQueue).Wait()`: `wg.Wait()` blocks until all pending jobs
have recorded results, then `close(jq.jobs)`. -/
def Wait (jq : JobQueue) : JobQueue :=
  { jq with
    pending := [],
    results := runJobsList jq.pending jq.results,
    closed := true }

/-- Method `(*JobQueue).GetResults()`: the results map (read under its
mutex). -/
def GetResults (jq : JobQueue) : List (ℕ × Option Err) :=
  jq.results

/-- The queue state after submitting `jobs` into a fresh
`NewJobQueue w rl`. -/
def afterSubmit (w : ℕ) (rl : ℤ) (jobs : List Job) : JobQueue :=
  { workerCount := w, rateLimit := rl, pending := jobs, results := [],
    closed := false }

end Queue

namespace InternalRetry

/-- Function `addJitter` (`internal/retry/retry.go` and, with the same
semantics, `pkg/retry/retry.go`): `jitter := rand.Int63n(int64(duration /
2)); return duration - jitter`.  `draw` is the value produced by
`rand.Int63n`, which ranges over `[0, duration/2)` and panics (`none`) when
`duration/2 ≤ 0`.  (`duration / 2` here is Euclidean division; it coincides
with Go's truncated division on nonnegative durations and gives the same
`≤ 0` verdict on negative ones.) -/
def addJitter (duration draw : ℤ) : Option ℤ :=
  if duration / 2 ≤ 0 then none
  else some (duration - draw)

/-- Function `calculateBackoff(currentBackoff, maxBackoff, jitter)` with
`jitter = false` (`internal/retry/retry.go`): doubles and caps at
`maxBackoff`; the jittered variant additionally applies `addJitter` to this
value. -/
def calculateBackoff (currentBackoff maxBackoff : ℤ) : ℤ :=
  let nextBackoff := currentBackoff * 2
  if maxBackoff < nextBackoff then maxBackoff else nextBackoff

/-- Loop body of `retry.Retry` (`internal/retry/retry.go`) with jitter
disabled: each failed non-final attempt sleeps `backoff` (recorded in the
returned trace of slept delays) and then updates
`backoff = calculateBackoff(backoff, maxBackoff)`.  Arguments: current
attempt number, remaining attempts, current backoff. -/
def retryAux (op : ℕ → Option Err) (maxBackoff : ℤ) :
    ℕ → ℕ → ℤ → Option Err × List ℤ
  | _, 0, _ => (none, [])
  | attempt, r + 1, backoff =>
    match op attempt with
    | none => (none, [])
    | some e =>
      if r = 0 then (some e, [])
      else
        let rest := retryAux op maxBackoff (attempt + 1) r
          (calculateBackoff backoff maxBackoff)
        (rest.1, backoff :: rest.2)

/-- Function `retry.Retry(opts, operation)` with `Jitter = false`: returns
the terminal outcome (the last error when all `maxAttempts` attempts fail)
and the list of slept backoff delays.  A non-positive `maxAttempts` skips
the loop and returns `nil`. -/
def Retry (maxAttempts initialBackoff maxBackoff : ℤ) (op : ℕ → Option Err) :
    Option Err × List ℤ :=
  retryAux op maxBackoff 1 maxAttempts.toNat initialBackoff

end InternalRetry

namespace AutoScaler

/-- Configuration of `autoscaler.AutoScaler`
(`internal/scaling/autoscaler.go`): `minWorkers`, `maxWorkers`,
`cpuThreshold`.  The capacity resource is the buffered channel
`workerPool`; its length is the current worker count. -/
structure Config where
  minWorkers : ℕ
  maxWorkers : ℕ
  cpuThreshold : ℚ

/-- Constructor `autoscaler.NewAutoScaler`: fills the pool with
`minWorkers` tokens, so the initial capacity is `minWorkers`. -/
def NewAutoScaler (cfg : Config) : ℕ :=
  cfg.minWorkers

/-- One iteration of `(*AutoScaler).monitorLoad`: sample `cpuUsage`, read
`currentWorkers := len(workerPool)`; scale up iff `cpuUsage > threshold`
and `current < max`, scale down iff `cpuUsage < threshold` and
`current > min`.  `timedOut` records whether the bounded scale operation
(`scaleUp`/`scaleDown`) hit its timeout and was abandoned without change. -/
def tick (cfg : Config) (current : ℕ) (cpuUsage : ℚ) (timedOut : Bool) : ℕ :=
  if cfg.cpuThreshold < cpuUsage ∧ current < cfg.maxWorkers then
    if timedOut then current else current + 1
  else if cpuUsage < cfg.cpuThreshold ∧ cfg.minWorkers < current then
    if timedOut then current else current - 1
  else current

/-- The monitoring loop over a sequence of load samples (each with its
timeout outcome). -/
def monitorLoad (cfg : Config) (current : ℕ) (samples : List (ℚ × Bool)) : ℕ :=
  samples.foldl (fun c s => tick cfg c s.1 s.2) current

end AutoScaler

/-! ## Theorems -/

namespace RateLimiter

theorem refill_preserves_TokenInv (rl : State) (now : ℚ) (h : TokenInv rl) :
    TokenInv (refill rl now) := by
  obtain ⟨h0, hc⟩ := h
  unfold refill TokenInv
  dsimp only
  split
  · rename_i hadd
    dsimp only
    split
    · rename_i hlt
      constructor
      · linarith
      · linarith
    · rename_i hge
      constructor
      · linarith
      · linarith
  · exact ⟨h0, hc⟩

theorem step_preserves_TokenInv (rl : State) (op : Op) (h : TokenInv rl)
    (hop : OpNonneg op) : TokenInv (step rl op) := by
  cases op with
  | allow now =>
      have h' := refill_preserves_TokenInv rl now h
      unfold step Allow AllowN
      dsimp only
      split
      · rename_i hge
        dsimp only [TokenInv]
        exact ⟨by linarith [h'.1, h'.2], by linarith [h'.1, h'.2]⟩
      · exact h'
  | allowN now n =>
      have h' := refill_preserves_TokenInv rl now h
      have hn : (0 : ℚ) ≤ n := hop
      unfold step AllowN
      dsimp only
      split
      · rename_i hge
        dsimp only [TokenInv]
        exact ⟨by linarith [h'.1, h'.2], by linarith [h'.1, h'.2]⟩
      · exact h'
  | available now =>
      exact refill_preserves_TokenInv rl now h

theorem run_preserves_TokenInv (rl : State) (ops : List Op) (h : TokenInv rl)
    (hops : ∀ op ∈ ops, OpNonneg op) : TokenInv (run rl ops) := by
  induction ops generalizing rl with
  | nil => exact h
  | cons op rest ih =>
      have h1 : TokenInv (step rl op) :=
        step_preserves_TokenInv rl op h (hops op (List.mem_cons_self op rest))
      exact ih (step rl op) h1 (fun o ho => hops o (List.mem_cons_of_mem op ho))

end RateLimiter

open RateLimiter

/-- C1 (amended): for a limiter built with positive rate, interval and
capacity, the token bound `0 ≤ tokens ≤ capacity` holds after every sequence
of `Allow`/`AllowN`/`Available` calls at arbitrary instants, provided each
`AllowN` call consumes a nonnegative token count. -/
theorem c1_token_bound (rate interval capacity t0 : ℚ)
    (hr : 0 < rate) (hi : 0 < interval) (hc : 0 < capacity)
    (ops : List Op) (hops : ∀ op ∈ ops, OpNonneg op) :
    TokenInv (run (New rate interval capacity t0) ops) := by
  apply run_preserves_TokenInv
  · unfold New TokenInv
    dsimp only
    rw [if_neg (by linarith)]
    exact ⟨le_of_lt hc, le_refl _⟩
  · exact hops

/-- C1 counterexample: with rate = interval = capacity = 1 (all positive),
the single call `AllowN(-1)` at the construction instant drives `tokens` to
2 > capacity = 1, so the claim as stated (over every `AllowN` argument)
fails. -/
theorem c1_cex :
    (run (New 1 1 1 0) [Op.allowN 0 (-1)]).tokens = 2 ∧
    (run (New 1 1 1 0) [Op.allowN 0 (-1)]).capacity = 1 ∧
    ¬ TokenInv (run (New 1 1 1 0) [Op.allowN 0 (-1)]) := by
  have hrun : run (New 1 1 1 0) [Op.allowN 0 (-1)]
      = { rate := 1, interval := 1, capacity := 1, tokens := 2,
          lastRefillTime := 0 } := by
    norm_num [run, step, AllowN, refill, New, List.foldl_cons, List.foldl_nil]
  rw [hrun]
  refine ⟨rfl, rfl, ?_⟩
  intro h
  have h2 := h.2
  norm_num at h2

/-- C1 witness: a concrete positive configuration and op sequence on which
`c1_token_bound` applies. -/
theorem c1_token_bound_witness :
    TokenInv (run (New 1 1 1 0) [Op.allow 1, Op.available 2, Op.allowN 3 (1/2)]) := by
  apply c1_token_bound 1 1 1 0 (by norm_num) (by norm_num) (by norm_num)
  intro op hop
  simp only [List.mem_cons, List.not_mem_nil, or_false] at hop
  rcases hop with h | h | h <;> subst h <;> norm_num [OpNonneg]

/-- C4: every access (`Allow`, `AllowN`, `Available`) first refills — in a
reachable state (`tokens ≤ capacity`, monotone clock) the refill sets
`tokens` to `min capacity (tokens + elapsed/interval * rate)` and
`lastRefillTime` to `now` — and the conditional decrement acts on the
refilled state within the same critical section (`AllowN` is literally
refill-then-conditional-decrement, `Allow` is `AllowN 1`, `Available`
reports the refilled token count). -/
theorem c4_refill_formula (rl : State) (now n : ℚ)
    (hr : 0 < rl.rate) (hi : 0 < rl.interval)
    (htc : rl.tokens ≤ rl.capacity) (hmono : rl.lastRefillTime ≤ now) :
    (refill rl now).tokens
        = min rl.capacity (rl.tokens + (now - rl.lastRefillTime) / rl.interval * rl.rate) ∧
    (refill rl now).lastRefillTime = now ∧
    AllowN rl now n
        = (if n ≤ (refill rl now).tokens
           then (true, { refill rl now with tokens := (refill rl now).tokens - n })
           else (false, refill rl now)) ∧
    Allow rl now = AllowN rl now 1 ∧
    Available rl now = ((refill rl now).tokens, refill rl now) := by
  have hadd : 0 ≤ (now - rl.lastRefillTime) / rl.interval * rl.rate := by
    apply mul_nonneg
    · apply div_nonneg
      · linarith
      · linarith
    · linarith
  refine ⟨?_, ?_, rfl, rfl, rfl⟩
  · unfold refill
    dsimp only
    split
    · rename_i hpos
      dsimp only
      split
      · rename_i hlt
        rw [min_eq_left]
        linarith
      · rename_i hge
        rw [min_eq_right]
        linarith
    · rename_i hnpos
      have hz : (now - rl.lastRefillTime) / rl.interval * rl.rate = 0 := by
        linarith
      rw [hz, add_zero, min_eq_right htc]
  · unfold refill
    dsimp only
    split <;> rfl

namespace InternalRetry

theorem calculateBackoff_eq_min (b M : ℤ) :
    calculateBackoff b M = min (b * 2) M := by
  unfold calculateBackoff
  dsimp only
  split
  · rename_i h
    exact (min_eq_right (le_of_lt h)).symm
  · rename_i h
    push_neg at h
    exact (min_eq_left h).symm

theorem min_calculateBackoff_pow (b M : ℤ) (hb : 0 < b) (hM : 0 < M) (k : ℕ) :
    min (calculateBackoff b M * 2 ^ k) M = min (b * 2 ^ (k + 1)) M := by
  rw [calculateBackoff_eq_min]
  have h2k : (1 : ℤ) ≤ 2 ^ k := one_le_pow₀ (by norm_num)
  have hpow : b * 2 * 2 ^ k = b * 2 ^ (k + 1) := by ring
  rcases le_or_lt (b * 2) M with h | h
  · rw [min_eq_left h, hpow]
  · have h1 : M ≤ M * 2 ^ k := le_mul_of_one_le_right (le_of_lt hM) h2k
    have h2 : b * 2 ≤ b * 2 * 2 ^ k := le_mul_of_one_le_right (by linarith) h2k
    rw [min_eq_right (le_of_lt h), min_eq_right h1,
      (min_eq_right (by linarith [hpow]) : min (b * 2 ^ (k + 1)) M = M)]

theorem retryAux_delays (op : ℕ → Option Err) (hop : ∀ t, (op t).isSome)
    (M : ℤ) (hM : 0 < M) :
    ∀ (r a : ℕ) (b : ℤ), 0 < b → b ≤ M → ∀ k : ℕ,
      ((retryAux op M a r b).2)[k]?
        = if k + 1 < r then some (min (b * 2 ^ k) M) else none := by
  intro r
  induction r with
  | zero =>
      intro a b hb hbM k
      simp [retryAux]
  | succ r ih =>
      intro a b hb hbM k
      obtain ⟨e, he⟩ := Option.isSome_iff_exists.mp (hop a)
      by_cases hr : r = 0
      · subst hr
        simp [retryAux, he]
      · have hstep : retryAux op M a (r + 1) b
            = ((retryAux op M (a + 1) r (calculateBackoff b M)).1,
               b :: (retryAux op M (a + 1) r (calculateBackoff b M)).2) := by
          simp [retryAux, he, hr]
        rw [hstep]
        cases k with
        | zero =>
            rw [if_pos (by omega)]
            simp [min_eq_left hbM]
        | succ k' =>
            have hcb_pos : 0 < calculateBackoff b M := by
              rw [calculateBackoff_eq_min]
              exact lt_min (by linarith) hM
            have hcb_le : calculateBackoff b M ≤ M := by
              rw [calculateBackoff_eq_min]
              exact min_le_right _ _
            rw [List.getElem?_cons_succ,
              ih (a + 1) (calculateBackoff b M) hcb_pos hcb_le k']
            by_cases hk : k' + 1 < r
            · rw [if_pos hk, if_pos (by omega),
                min_calculateBackoff_pow b M hb hM k']
            · rw [if_neg hk, if_neg (by omega)]

end InternalRetry

open InternalRetry

/-- C5 (amended): with jitter disabled and `0 < initial ≤ max`, the delay
slept before retry attempt `k+2` (0-based index `k` in the trace of
`retry.Retry`) equals `min (initial * 2 ^ k) max`; consequently successive
delays are non-decreasing and never exceed `max`.  (The amendment adds
`initial ≤ max`: the first slept delay is the uncapped initial backoff, so
for `initial > max` the claimed formula and bound fail; see `c5_cex`.) -/
theorem c5_backoff_schedule (i M : ℤ) (m : ℕ) (op : ℕ → Option Err)
    (hop : ∀ t, (op t).isSome) (hi : 0 < i) (hM : 0 < M) (hiM : i ≤ M) :
    (∀ k : ℕ, ((Retry (m : ℤ) i M op).2)[k]?
        = if k + 1 < m then some (min (i * 2 ^ k) M) else none)
    ∧ (∀ k : ℕ, min (i * 2 ^ k) M ≤ min (i * 2 ^ (k + 1)) M)
    ∧ (∀ (k : ℕ) (d : ℤ), ((Retry (m : ℤ) i M op).2)[k]? = some d → d ≤ M) := by
  have hR : (Retry (m : ℤ) i M op).2 = (retryAux op M 1 m i).2 := by
    unfold Retry
    rw [Int.toNat_natCast]
  refine ⟨?_, ?_, ?_⟩
  · intro k
    rw [hR]
    exact retryAux_delays op hop M hM m 1 i hi hiM k
  · intro k
    refine min_le_min ?_ (le_refl M)
    refine mul_le_mul_of_nonneg_left ?_ (le_of_lt hi)
    exact pow_le_pow_right₀ (by norm_num) (by omega)
  · intro k d hkd
    rw [hR, retryAux_delays op hop M hM m 1 i hi hiM k] at hkd
    by_cases hk : k + 1 < m
    · rw [if_pos hk] at hkd
      injection hkd with h
      rw [← h]
      exact min_le_right _ _
    · rw [if_neg hk] at hkd
      exact absurd hkd (by simp)

/-- C5 counterexample: `Retry` with `maxAttempts = 2`, `initialBackoff = 3`,
`maxBackoff = 1` and an always-failing operation sleeps exactly `[3]`: the
delay before attempt 2 is 3, not `min (3 * 2 ^ 0) 1 = 1`, and it exceeds
`maxBackoff = 1` — refuting the claim as stated for `initial > max`. -/
theorem c5_cex :
    (Retry 2 3 1 (fun _ => some 0)).2 = [3] ∧
    ((Retry 2 3 1 (fun _ => some 0)).2)[0]? = some 3 ∧
    min ((3 : ℤ) * 2 ^ 0) 1 = 1 ∧ ¬ ((3 : ℤ) ≤ 1) := by
  refine ⟨rfl, rfl, ?_, by decide⟩
  decide

/-- C5 witness: the schedule formula at a concrete configuration. -/
theorem c5_backoff_schedule_witness :
    ((Retry ((3 : ℕ) : ℤ) 1 4 (fun _ => some 0)).2)[0]?
      = if 0 + 1 < 3 then some (min ((1 : ℤ) * 2 ^ 0) 4) else none :=
  (c5_backoff_schedule 1 4 3 (fun _ => some 0) (fun _ => rfl)
    (by decide) (by decide) (by decide)).1 0

/-- C6: with jitter enabled, for every nominal delay `d > 0` and every
possible random draw (`rand.Int63n(d/2)` produces exactly the integers in
`[0, d/2)`, and only when `d/2 > 0`), the returned delay `d - draw` lies in
the closed interval `[d/2, d]`: jitter only ever shortens the delay. -/
theorem c6_jitter_shortens (d draw : ℤ) (hd : 0 < d) (h0 : 0 ≤ draw)
    (hdr : draw < d / 2) :
    addJitter d draw = some (d - draw) ∧ d ≤ 2 * (d - draw) ∧ d - draw ≤ d := by
  refine ⟨?_, by omega, by omega⟩
  unfold addJitter
  rw [if_neg (by omega)]

/-- C6 witness: the jitter bounds at `d = 10`, `draw = 3`. -/
theorem c6_jitter_shortens_witness :
    addJitter 10 3 = some (10 - 3) ∧ (10 : ℤ) ≤ 2 * (10 - 3) ∧ (10 : ℤ) - 3 ≤ 10 :=
  c6_jitter_shortens 10 3 (by decide) (by decide) (by decide)

/-- C4 witness: the refill formula at a concrete reachable state. -/
theorem c4_refill_formula_witness :
    (refill (New 1 1 2 0) 1).tokens
        = min (New 1 1 2 0).capacity
            ((New 1 1 2 0).tokens
              + (1 - (New 1 1 2 0).lastRefillTime) / (New 1 1 2 0).interval
                  * (New 1 1 2 0).rate) ∧
    (refill (New 1 1 2 0) 1).lastRefillTime = 1 := by
  have h := c4_refill_formula (New 1 1 2 0) 1 1 (by norm_num [New])
    (by norm_num [New]) (by norm_num [New]) (by norm_num [New])
  exact ⟨h.1, h.2.1⟩

namespace Queue

theorem runJob_zero (task : ℕ → Option Err) (a : ℕ) (e0 : Option Err) :
    runJob task a 0 e0 = (e0, []) := rfl

theorem runJob_succ_none (task : ℕ → Option Err) (a r : ℕ) (e0 : Option Err)
    (h : task a = none) :
    runJob task a (r + 1) e0 = (none, [.exec a]) := by
  simp [runJob, h]

theorem runJob_succ_some (task : ℕ → Option Err) (a r : ℕ) (e0 : Option Err)
    (e : Err) (h : task a = some e) :
    runJob task a (r + 1) e0
      = ((runJob task (a + 1) r (some e)).1,
         .exec a :: .sleepBackoff 500 :: (runJob task (a + 1) r (some e)).2) := by
  simp [runJob, h]

theorem execCount_nil : execCount [] = 0 := rfl

theorem execCount_cons_exec (a : ℕ) (tr : List Event) :
    execCount (.exec a :: tr) = execCount tr + 1 := by
  simp [execCount, List.countP_cons, Event.isExec]

theorem execCount_cons_sleep (ms : ℕ) (tr : List Event) :
    execCount (.sleepBackoff ms :: tr) = execCount tr := by
  simp [execCount, List.countP_cons, Event.isExec]

theorem runJob_succeeds (task : ℕ → Option Err) :
    ∀ (j r a : ℕ) (e0 : Option Err), j < r →
      (∀ i, a ≤ i → i < a + j → (task i).isSome) → task (a + j) = none →
      (runJob task a r e0).1 = none ∧ execCount (runJob task a r e0).2 = j + 1 := by
  intro j
  induction j with
  | zero =>
      intro r a e0 hjr hfail hsucc
      obtain ⟨r', rfl⟩ : ∃ r', r = r' + 1 := ⟨r - 1, by omega⟩
      rw [runJob_succ_none task a r' e0 (by simpa using hsucc)]
      exact ⟨rfl, by rw [execCount_cons_exec, execCount_nil]⟩
  | succ j' ih =>
      intro r a e0 hjr hfail hsucc
      obtain ⟨r', rfl⟩ : ∃ r', r = r' + 1 := ⟨r - 1, by omega⟩
      have hsa : (task a).isSome := hfail a (le_refl a) (by omega)
      obtain ⟨e, he⟩ := Option.isSome_iff_exists.mp hsa
      rw [runJob_succ_some task a r' e0 e he]
      have hres := ih r' (a + 1) (some e) (by omega)
        (fun i h1 h2 => hfail i (by omega) (by omega))
        (by rw [show a + 1 + j' = a + (j' + 1) by omega]; exact hsucc)
      exact ⟨hres.1,
        by rw [execCount_cons_exec, execCount_cons_sleep, hres.2]⟩

theorem runJob_allfail (task : ℕ → Option Err) :
    ∀ (r a : ℕ) (e0 : Option Err), 0 < r →
      (∀ i, a ≤ i → i < a + r → (task i).isSome) →
      (runJob task a r e0).1 = task (a + r - 1) ∧
      execCount (runJob task a r e0).2 = r := by
  intro r
  induction r with
  | zero =>
      intro a e0 h0
      exact absurd h0 (lt_irrefl 0)
  | succ r' ih =>
      intro a e0 h0 hfail
      have hsa : (task a).isSome := hfail a (le_refl a) (by omega)
      obtain ⟨e, he⟩ := Option.isSome_iff_exists.mp hsa
      rw [runJob_succ_some task a r' e0 e he]
      by_cases hr : r' = 0
      · subst hr
        rw [runJob_zero]
        refine ⟨?_, ?_⟩
        · dsimp only
          rw [show a + 1 - 1 = a by omega, he]
        · rw [execCount_cons_exec, execCount_cons_sleep]
          rfl
      · have hres := ih (a + 1) (some e) (by omega)
          (fun i h1 h2 => hfail i (by omega) (by omega))
        refine ⟨?_, ?_⟩
        · dsimp only
          rw [hres.1, show a + 1 + r' - 1 = a + (r' + 1) - 1 by omega]
        · rw [execCount_cons_exec, execCount_cons_sleep, hres.2]

theorem grantCount_runJob (task : ℕ → Option Err) :
    ∀ (r a : ℕ) (e0 : Option Err),
      grantCount (runJob task a r e0).2 = 0 ∧
      sleepRateCount (runJob task a r e0).2 = 0 := by
  intro r
  induction r with
  | zero =>
      intro a e0
      exact ⟨rfl, rfl⟩
  | succ r' ih =>
      intro a e0
      cases hta : task a with
      | none =>
          rw [runJob_succ_none task a r' e0 hta]
          exact ⟨rfl, rfl⟩
      | some e =>
          rw [runJob_succ_some task a r' e0 e hta]
          have hres := ih (a + 1) (some e)
          constructor
          · simp [grantCount, List.countP_cons, Event.isGrant] at hres ⊢
            exact hres.1
          · simp [sleepRateCount, List.countP_cons, Event.isSleepRate] at hres ⊢
            exact hres.2

end Queue

open Queue

/-- C2: for a job with `Retries = m ≥ 1`, if the task fails on the first
`k < m` attempts and succeeds on attempt `k+1`, the worker invokes it
exactly `k+1` times and records `nil` (terminal success); if it fails on
every attempt, the worker invokes it exactly `m` times — never more — and
records the error of the last attempt (terminal failure). -/
theorem c2_retry_count (m : ℕ) (hm : 1 ≤ m) (task : ℕ → Option Err) :
    (∀ k : ℕ, k < m → (∀ i, 1 ≤ i → i ≤ k → (task i).isSome) →
        task (k + 1) = none →
        (processJob task (m : ℤ)).1 = none ∧
        execCount (processJob task (m : ℤ)).2 = k + 1)
    ∧ ((∀ i, 1 ≤ i → i ≤ m → (task i).isSome) →
        (processJob task (m : ℤ)).1 = task m ∧
        ((processJob task (m : ℤ)).1).isSome ∧
        execCount (processJob task (m : ℤ)).2 = m) := by
  have hp : processJob task (m : ℤ) = runJob task 1 m none := by
    unfold processJob
    rw [Int.toNat_natCast]
  constructor
  · intro k hk hfail hsucc
    rw [hp]
    exact runJob_succeeds task k m 1 none hk
      (fun i h1 h2 => hfail i h1 (by omega))
      (by rw [show 1 + k = k + 1 by omega]; exact hsucc)
  · intro hfail
    rw [hp]
    have h := runJob_allfail task m 1 none (by omega)
      (fun i h1 h2 => hfail i h1 (by omega))
    refine ⟨?_, ?_, h.2⟩
    · rw [h.1, show 1 + m - 1 = m by omega]
    · rw [h.1, show 1 + m - 1 = m by omega]
      exact hfail m (by omega) (le_refl m)

/-- C2 witness: `Retries = 3`, task failing on attempts 1 and 2 and
succeeding on attempt 3: terminal success after exactly 3 invocations. -/
theorem c2_retry_count_witness :
    (processJob (fun t => if t ≤ 2 then some 7 else none) ((3 : ℕ) : ℤ)).1 = none ∧
    execCount (processJob (fun t => if t ≤ 2 then some 7 else none) ((3 : ℕ) : ℤ)).2
      = 2 + 1 :=
  (c2_retry_count 3 (by omega) (fun t => if t ≤ 2 then some 7 else none)).1 2
    (by omega)
    (fun i h1 h2 => by simp [if_pos h2])
    (by norm_num)

/-- C10: for a job submitted with `Retries ≤ 0` the worker never invokes
the task (zero executions), records a `nil` result for the job's ID,
`Wait()` counts it as completed, and `GetResults()` reports it as a
success. -/
theorem c10_nonpositive_retries (w : ℕ) (rl : ℤ) (id : ℕ)
    (task : ℕ → Option Err) (retries : ℤ) (hr : retries ≤ 0) :
    (processJob task retries).1 = none ∧
    execCount (processJob task retries).2 = 0 ∧
    AddJob (NewJobQueue w rl) ⟨id, task, retries⟩
      = .ok (afterSubmit w rl [⟨id, task, retries⟩]) ∧
    (GetResults (Wait (afterSubmit w rl [⟨id, task, retries⟩]))).lookup id
      = some none ∧
    (GetResults (Wait (afterSubmit w rl [⟨id, task, retries⟩]))).length = 1 := by
  have ht : retries.toNat = 0 := by omega
  have hpj : processJob task retries = (none, []) := by
    unfold processJob
    rw [ht]
    exact runJob_zero task 1 none
  refine ⟨by rw [hpj], by rw [hpj]; rfl, ?_, ?_, ?_⟩
  · simp [AddJob, NewJobQueue, afterSubmit]
  · simp [GetResults, Wait, afterSubmit, runJobsList, mapInsert,
      terminalResult, hpj, List.lookup]
  · simp [GetResults, Wait, afterSubmit, runJobsList, mapInsert]

/-- C10 witness: a concrete job with `Retries = -1`. -/
theorem c10_nonpositive_retries_witness :
    (processJob (fun _ => some 9) (-1)).1 = none ∧
    execCount (processJob (fun _ => some 9) (-1)).2 = 0 ∧
    AddJob (NewJobQueue 1 0) ⟨5, fun _ => some 9, -1⟩
      = .ok (afterSubmit 1 0 [⟨5, fun _ => some 9, -1⟩]) ∧
    (GetResults (Wait (afterSubmit 1 0 [⟨5, fun _ => some 9, -1⟩]))).lookup 5
      = some none ∧
    (GetResults (Wait (afterSubmit 1 0 [⟨5, fun _ => some 9, -1⟩]))).length = 1 :=
  c10_nonpositive_retries 1 0 5 (fun _ => some 9) (-1) (by decide)

/-- C7 (amended): calling `AddJob` after `Wait` has closed the `jobs`
channel panics (Go send on closed channel) instead of returning a
`DispatcherClosed` error; no new queue state is produced, so the job is
never admitted, its task never runs, and no result entry is recorded. -/
theorem c7_submit_after_close (jq : JobQueue) (job : Job)
    (h : jq.closed = true) :
    AddJob jq job = .panicSendOnClosedChannel ∧
    ∀ jq' : JobQueue, AddJob jq job ≠ AddJobOutcome.ok jq' := by
  have h1 : AddJob jq job = .panicSendOnClosedChannel := by
    simp [AddJob, h]
  refine ⟨h1, fun jq' hc => ?_⟩
  rw [h1] at hc
  exact AddJobOutcome.noConfusion hc

/-- C7 counterexample: at the concrete closed dispatcher
`Wait (NewJobQueue 1 0)`, `AddJob` panics — it does not complete with any
error value (the Go method has no return value and no `DispatcherClosed`
path), refuting the claim that `Submit` fails with a `DispatcherClosed`
error. -/
theorem c7_cex :
    AddJob (Wait (NewJobQueue 1 0)) ⟨1, fun _ => none, 1⟩
      = AddJobOutcome.panicSendOnClosedChannel := by
  simp [AddJob, Wait, NewJobQueue]

/-- C7 witness: `c7_submit_after_close` at a concrete closed queue. -/
theorem c7_submit_after_close_witness :
    AddJob { workerCount := 2, rateLimit := 5, pending := [], results := [],
             closed := true } ⟨9, fun _ => none, 0⟩
      = AddJobOutcome.panicSendOnClosedChannel :=
  (c7_submit_after_close
    { workerCount := 2, rateLimit := 5, pending := [], results := [],
      closed := true } ⟨9, fun _ => none, 0⟩ rfl).1

/-- C8 (amended): the worker performs no rate-limiter admission at all —
its per-job trace contains zero admissions no matter how many attempts run;
its only rate limiting is the single fixed `time.Sleep(rateLimit)` after
the job completes (failed attempts are separated by a fixed 500 ms sleep,
also without admission). -/
theorem c8_no_admission (rl : ℤ) (job : Job) :
    grantCount (workerJobTrace rl job) = 0 ∧
    sleepRateCount (workerJobTrace rl job) = 1 := by
  have h := grantCount_runJob job.Task job.Retries.toNat 1 none
  unfold workerJobTrace processJob
  dsimp only
  constructor
  · simp only [grantCount, List.countP_append, List.countP_cons,
      List.countP_nil, Event.isGrant]
    simp only [grantCount] at h
    simp [h.1]
  · simp only [sleepRateCount, List.countP_append, List.countP_cons,
      List.countP_nil, Event.isSleepRate]
    simp only [sleepRateCount] at h
    simp [h.2]

/-- C8 counterexample: a concrete job whose task fails once then succeeds
(2 executions): the worker trace contains 0 admissions, refuting the claim
that every execution is preceded by a consumed admission (which would
require at least 2). -/
theorem c8_cex :
    execCount (workerJobTrace 100 ⟨1, fun t => if t = 1 then some 3 else none, 2⟩) = 2 ∧
    grantCount (workerJobTrace 100 ⟨1, fun t => if t = 1 then some 3 else none, 2⟩) = 0 ∧
    ¬ (execCount (workerJobTrace 100 ⟨1, fun t => if t = 1 then some 3 else none, 2⟩)
        ≤ grantCount (workerJobTrace 100 ⟨1, fun t => if t = 1 then some 3 else none, 2⟩)) := by
  decide

namespace Queue

theorem lookup_filter_ne (m : List (ℕ × Option Err)) (k k' : ℕ) (h : k' ≠ k) :
    (m.filter (fun p => p.1 != k)).lookup k' = m.lookup k' := by
  induction m with
  | nil => rfl
  | cons p t ih =>
      obtain ⟨a, b⟩ := p
      by_cases hak : a = k
      · subst hak
        have hka : (k' == a) = false := by
          simp only [beq_eq_false_iff_ne, ne_eq]
          exact h
        simp [List.filter, List.lookup, hka, ih]
      · have hfa : (a != k) = true := by
          simp only [bne_iff_ne, ne_eq]
          exact hak
        by_cases hk'a : k' = a
        · subst hk'a
          simp [List.filter, hfa, List.lookup]
        · have hka : (k' == a) = false := by
            simp only [beq_eq_false_iff_ne, ne_eq]
            exact hk'a
          simp [List.filter, hfa, List.lookup, hka, ih]

theorem filter_ne_eq_self (m : List (ℕ × Option Err)) (k : ℕ)
    (h : m.lookup k = none) :
    m.filter (fun p => p.1 != k) = m := by
  induction m with
  | nil => rfl
  | cons p t ih =>
      obtain ⟨a, b⟩ := p
      by_cases hak : k = a
      · subst hak
        simp [List.lookup] at h
      · have hka : (k == a) = false := by
          simp only [beq_eq_false_iff_ne, ne_eq]
          exact hak
        have ht : t.lookup k = none := by
          simpa [List.lookup, hka] using h
        have hfa : (a != k) = true := by
          simp only [bne_iff_ne, ne_eq]
          exact fun hc => hak hc.symm
        simp [List.filter, hfa, ih ht]

theorem lookup_mapInsert_self (m : List (ℕ × Option Err)) (k : ℕ)
    (v : Option Err) :
    (mapInsert m k v).lookup k = some v := by
  simp [mapInsert, List.lookup]

theorem lookup_mapInsert_ne (m : List (ℕ × Option Err)) (k : ℕ)
    (v : Option Err) (k' : ℕ) (h : k' ≠ k) :
    (mapInsert m k v).lookup k' = m.lookup k' := by
  have hka : (k' == k) = false := by
    simp only [beq_eq_false_iff_ne, ne_eq]
    exact h
  simp [mapInsert, List.lookup, hka, lookup_filter_ne m k k' h]

theorem length_mapInsert_of_lookup_none (m : List (ℕ × Option Err)) (k : ℕ)
    (v : Option Err) (h : m.lookup k = none) :
    (mapInsert m k v).length = m.length + 1 := by
  simp [mapInsert, filter_ne_eq_self m k h]

theorem runJobsList_spec :
    ∀ (jobs : List Job) (acc : List (ℕ × Option Err)),
      (jobs.map Job.ID).Nodup →
      (∀ j ∈ jobs, acc.lookup j.ID = none) →
      (runJobsList jobs acc).length = acc.length + jobs.length ∧
      (∀ j ∈ jobs, (runJobsList jobs acc).lookup j.ID = some (terminalResult j)) ∧
      (∀ k : ℕ, (∀ j ∈ jobs, j.ID ≠ k) →
        (runJobsList jobs acc).lookup k = acc.lookup k) := by
  intro jobs
  induction jobs with
  | nil =>
      intro acc _ _
      exact ⟨rfl, by simp, fun k _ => rfl⟩
  | cons job rest ih =>
      intro acc hnodup hfresh
      rw [List.map_cons, List.nodup_cons] at hnodup
      obtain ⟨hid_notin, hnodup'⟩ := hnodup
      have hacc_job : acc.lookup job.ID = none :=
        hfresh job (List.mem_cons_self _ _)
      have hrest_ne : ∀ j' ∈ rest, j'.ID ≠ job.ID := by
        intro j' hj' hcontra
        exact hid_notin (hcontra ▸ List.mem_map_of_mem Job.ID hj')
      have hfresh' : ∀ j ∈ rest,
          (mapInsert acc job.ID (terminalResult job)).lookup j.ID = none := by
        intro j hj
        rw [lookup_mapInsert_ne acc job.ID _ j.ID (hrest_ne j hj)]
        exact hfresh j (List.mem_cons_of_mem _ hj)
      have IH := ih (mapInsert acc job.ID (terminalResult job)) hnodup' hfresh'
      have hstep : runJobsList (job :: rest) acc
          = runJobsList rest (mapInsert acc job.ID (terminalResult job)) := rfl
      refine ⟨?_, ?_, ?_⟩
      · rw [hstep, IH.1,
          length_mapInsert_of_lookup_none acc job.ID _ hacc_job,
          List.length_cons]
        omega
      · intro j hj
        rcases List.mem_cons.mp hj with rfl | hj'
        · rw [hstep, IH.2.2 j.ID (hrest_ne), lookup_mapInsert_self]
        · rw [hstep]
          exact IH.2.1 j hj'
      · intro k hk
        rw [hstep,
          IH.2.2 k (fun j hj => hk j (List.mem_cons_of_mem _ hj)),
          lookup_mapInsert_ne acc job.ID _ k
            (hk job (List.mem_cons_self _ _)).symm]

theorem submitAll_open :
    ∀ (js : List Job) (jq : JobQueue), jq.closed = false →
      submitAll jq js = .ok { jq with pending := jq.pending ++ js } := by
  intro js
  induction js with
  | nil =>
      intro jq hc
      simp [submitAll]
  | cons j t ihs =>
      intro jq hc
      have hadd : AddJob jq j = .ok { jq with pending := jq.pending ++ [j] } := by
        simp [AddJob, hc]
      have : submitAll jq (j :: t)
          = submitAll { jq with pending := jq.pending ++ [j] } t := by
        simp [submitAll, hadd]
      rw [this, ihs { jq with pending := jq.pending ++ [j] } hc]
      simp

end Queue

/-- C3: after submitting `K` jobs with distinct IDs into a fresh queue and
`Wait()` returning, `GetResults()` contains exactly `K` entries, one per
submitted job ID, each holding that job's terminal outcome. -/
theorem c3_drain_completeness (w : ℕ) (rl : ℤ) (jobs : List Job)
    (hids : (jobs.map Job.ID).Nodup) :
    submitAll (NewJobQueue w rl) jobs = .ok (afterSubmit w rl jobs) ∧
    (GetResults (Wait (afterSubmit w rl jobs))).length = jobs.length ∧
    ∀ j ∈ jobs, (GetResults (Wait (afterSubmit w rl jobs))).lookup j.ID
      = some (terminalResult j) := by
  have hspec := runJobsList_spec jobs [] hids (fun j _ => rfl)
  refine ⟨?_, ?_, ?_⟩
  · rw [submitAll_open jobs (NewJobQueue w rl) rfl]
    simp [NewJobQueue, afterSubmit]
  · have : GetResults (Wait (afterSubmit w rl jobs)) = runJobsList jobs [] := rfl
    rw [this, hspec.1]
    simp
  · intro j hj
    have : GetResults (Wait (afterSubmit w rl jobs)) = runJobsList jobs [] := rfl
    rw [this]
    exact hspec.2.1 j hj

/-- C3 witness: two jobs with distinct IDs 1, 2 drain to exactly two
recorded terminal results. -/
theorem c3_drain_completeness_witness :
    submitAll (NewJobQueue 1 0) [⟨1, fun _ => none, 1⟩, ⟨2, fun _ => some 5, 1⟩]
      = .ok (afterSubmit 1 0 [⟨1, fun _ => none, 1⟩, ⟨2, fun _ => some 5, 1⟩]) ∧
    (GetResults (Wait (afterSubmit 1 0
      [⟨1, fun _ => none, 1⟩, ⟨2, fun _ => some 5, 1⟩]))).length = 2 := by
  have h := c3_drain_completeness 1 0
    [⟨1, fun _ => none, 1⟩, ⟨2, fun _ => some 5, 1⟩] (by simp)
  exact ⟨h.1, h.2.1⟩

namespace AutoScaler

theorem tick_conditions (cfg : Config) (c : ℕ) (load : ℚ) (t : Bool)
    (hmin : cfg.minWorkers ≤ c) (hmax : c ≤ cfg.maxWorkers) :
    ((c < tick cfg c load t) → (cfg.cpuThreshold < load ∧ c < cfg.maxWorkers)) ∧
    ((tick cfg c load t < c) → (load < cfg.cpuThreshold ∧ cfg.minWorkers < c)) ∧
    (cfg.minWorkers ≤ tick cfg c load t ∧ tick cfg c load t ≤ cfg.maxWorkers) := by
  unfold tick
  split
  · rename_i h1
    obtain ⟨h1a, h1b⟩ := h1
    split
    · exact ⟨fun h => absurd h (lt_irrefl c), fun h => absurd h (lt_irrefl c),
        hmin, hmax⟩
    · exact ⟨fun _ => ⟨h1a, h1b⟩, fun h => absurd h (by omega), by omega,
        by omega⟩
  · split
    · rename_i h2
      obtain ⟨h2a, h2b⟩ := h2
      split
      · exact ⟨fun h => absurd h (lt_irrefl c), fun h => absurd h (lt_irrefl c),
          hmin, hmax⟩
      · exact ⟨fun h => absurd h (by omega), fun _ => ⟨h2a, h2b⟩, by omega,
          by omega⟩
    · exact ⟨fun h => absurd h (lt_irrefl c), fun h => absurd h (lt_irrefl c),
        hmin, hmax⟩

theorem monitorLoad_bounds (cfg : Config) (samples : List (ℚ × Bool)) :
    ∀ c : ℕ, cfg.minWorkers ≤ c → c ≤ cfg.maxWorkers →
      cfg.minWorkers ≤ monitorLoad cfg c samples ∧
      monitorLoad cfg c samples ≤ cfg.maxWorkers := by
  induction samples with
  | nil =>
      intro c h1 h2
      exact ⟨h1, h2⟩
  | cons s rest ihs =>
      intro c h1 h2
      have ht := (tick_conditions cfg c s.1 s.2 h1 h2).2.2
      exact ihs (tick cfg c s.1 s.2) ht.1 ht.2

end AutoScaler

open AutoScaler

/-- C9: for `0 ≤ minWorkers ≤ maxWorkers` the capacity resource starts at
`minWorkers`; every monitoring tick keeps it within
`[minWorkers, maxWorkers]`; capacity is added only when
`current < maxWorkers` and the load sample exceeds the threshold, and
removed only when `current > minWorkers` and the sample is below it
(a timed-out scale attempt changes nothing). -/
theorem c9_capacity_bounds (minW maxW : ℕ) (thr : ℚ) (hmm : minW ≤ maxW)
    (samples : List (ℚ × Bool)) :
    NewAutoScaler ⟨minW, maxW, thr⟩ = minW ∧
    (minW ≤ monitorLoad ⟨minW, maxW, thr⟩ (NewAutoScaler ⟨minW, maxW, thr⟩) samples ∧
      monitorLoad ⟨minW, maxW, thr⟩ (NewAutoScaler ⟨minW, maxW, thr⟩) samples ≤ maxW) ∧
    (∀ (c : ℕ) (load : ℚ) (t : Bool), minW ≤ c → c ≤ maxW →
      ((c < tick ⟨minW, maxW, thr⟩ c load t) → (thr < load ∧ c < maxW)) ∧
      ((tick ⟨minW, maxW, thr⟩ c load t < c) → (load < thr ∧ minW < c)) ∧
      (minW ≤ tick ⟨minW, maxW, thr⟩ c load t ∧
        tick ⟨minW, maxW, thr⟩ c load t ≤ maxW)) := by
  refine ⟨rfl, ?_, ?_⟩
  · exact monitorLoad_bounds ⟨minW, maxW, thr⟩ samples minW (le_refl _) hmm
  · intro c load t h1 h2
    exact tick_conditions ⟨minW, maxW, thr⟩ c load t h1 h2

/-- C9 witness: min 1, max 2, threshold 1/2, one high-load sample. -/
theorem c9_capacity_bounds_witness :
    NewAutoScaler ⟨1, 2, 1/2⟩ = 1 ∧
    (1 ≤ monitorLoad ⟨1, 2, 1/2⟩ (NewAutoScaler ⟨1, 2, 1/2⟩) [(1, false)] ∧
      monitorLoad ⟨1, 2, 1/2⟩ (NewAutoScaler ⟨1, 2, 1/2⟩) [(1, false)] ≤ 2) := by
  have h := c9_capacity_bounds 1 2 (1/2) (by omega) [(1, false)]
  exact ⟨h.1, h.2.1⟩

end Gollama
